import Mathlib

/-!
Verification of the meshoptimizer demo pipeline.

The repository ships the demo driver (`demo/main.cpp`); the library it
drives (vertex deduplication, the cache simulator, the post-transform and
overdraw optimizers, and the analyzers) is declared in
`meshoptimizer.hpp` but its implementation is not part of the source
tree.  Those operations are therefore modelled from the specification
(spec.md §4.1–§4.5), as noted on each definition.  The demo driver
itself (`generatePlane`, the `opt*` wrappers, `optimize`, `main`) is
embedded directly from `demo/main.cpp`.

Machine integers are modelled as `Nat` (no arithmetic in the demo or the
modelled operations can overflow the 32/64-bit ranges for the inputs
considered), and the floating-point statistics are modelled as exact
rationals `ℚ`.
-/

namespace MeshOpt

/-! ## Vertex streams as flat byte buffers (spec §3, §4.1)

A vertex record is an uninterpreted fixed-size byte block; a stream is a flat
buffer addressed with a caller-supplied stride. -/

/-- Record number `i` of a flat byte buffer with the given stride. -/
def recordAt (data : List Nat) (stride i : Nat) : List Nat :=
  (data.drop (i * stride)).take stride

/-- Number of complete records in the buffer. -/
def recordCount (data : List Nat) (stride : Nat) : Nat :=
  data.length / stride

/-- The sequence of records of a flat vertex stream. -/
def records (data : List Nat) (stride : Nat) : List (List Nat) :=
  (List.range (recordCount data stride)).map (recordAt data stride)

/-- Position of the first occurrence of `a` in `l`, with the equality test
taken from the `DecidableEq` instance. -/
def idxOf {α : Type} [DecidableEq α] (a : α) (l : List α) : Nat :=
  List.indexOf a l

theorem idxOf_lt_length {α : Type} [DecidableEq α] {a : α} {l : List α} (h : a ∈ l) :
    idxOf a l < l.length := by
  simp only [idxOf]
  exact List.indexOf_lt_length.mpr h

theorem getElem_idxOf {α : Type} [DecidableEq α] {a : α} {l : List α}
    (h : idxOf a l < l.length) : l[idxOf a l] = a := by
  simp only [idxOf] at h ⊢
  exact List.getElem_indexOf h

/-- First-occurrence list of the distinct elements of a list: the head of
the list is kept, and later duplicates are dropped. -/
def uniqueList {α : Type} [DecidableEq α] : List α → List α
  | [] => []
  | v :: rest => v :: (uniqueList rest).filter (fun w => decide (w ≠ v))

/-- Modelled from the spec (§4.1; the library implementation is not in the
source tree): `generateIndexBuffer` maps every record of the stream to the
index of its canonical (first) occurrence among the distinct records,
canonicalized by exact byte equality, and returns the index buffer
together with the count of unique records. -/
def generateIndexBuffer (data : List Nat) (stride : Nat) : List Nat × Nat :=
  ((records data stride).map (fun r => idxOf r (uniqueList (records data stride))),
   (uniqueList (records data stride)).length)

/-- Modelled from the spec (§4.1): the second pass emits one copy of each
distinct record, in first-occurrence order, as a flat byte buffer. -/
def generateVertexBuffer (data : List Nat) (stride : Nat) : List Nat :=
  (uniqueList (records data stride)).flatten

/-! ### Basic facts about `uniqueList` -/

theorem mem_uniqueList {α : Type} [DecidableEq α] {a : α} :
    ∀ {l : List α}, a ∈ uniqueList l ↔ a ∈ l
  | [] => Iff.rfl
  | v :: rest => by
    simp only [uniqueList, List.mem_cons, List.mem_filter, decide_eq_true_eq]
    constructor
    · rintro (rfl | ⟨h, _⟩)
      · exact Or.inl rfl
      · exact Or.inr (mem_uniqueList.mp h)
    · rintro (rfl | h)
      · exact Or.inl rfl
      · by_cases hv : a = v
        · exact Or.inl hv
        · exact Or.inr ⟨mem_uniqueList.mpr h, hv⟩

theorem nodup_uniqueList {α : Type} [DecidableEq α] : ∀ l : List α, (uniqueList l).Nodup
  | [] => List.nodup_nil
  | v :: rest => by
    simp only [uniqueList, List.nodup_cons]
    refine ⟨?_, (nodup_uniqueList rest).filter _⟩
    intro hmem
    rcases List.mem_filter.mp hmem with ⟨_, hne⟩
    exact (decide_eq_true_eq.mp hne) rfl

theorem length_uniqueList_le {α : Type} [DecidableEq α] :
    ∀ l : List α, (uniqueList l).length ≤ l.length
  | [] => le_rfl
  | v :: rest => by
    simp only [uniqueList, List.length_cons]
    exact Nat.succ_le_succ
      (le_trans (List.length_filter_le _ (uniqueList rest)) (length_uniqueList_le rest))

theorem uniqueList_eq_self {α : Type} [DecidableEq α] :
    ∀ {l : List α}, l.Nodup → uniqueList l = l
  | [], _ => rfl
  | v :: rest, h => by
    rcases List.nodup_cons.mp h with ⟨hv, hrest⟩
    have hu := uniqueList_eq_self hrest
    simp only [uniqueList, hu]
    congr 1
    refine List.filter_eq_self.mpr fun a ha => ?_
    exact decide_eq_true fun hav => hv (hav ▸ ha)

theorem toFinset_uniqueList {α : Type} [DecidableEq α] (l : List α) :
    (uniqueList l).toFinset = l.toFinset := by
  ext a
  simp [List.mem_toFinset, mem_uniqueList]

theorem length_uniqueList_eq_card {α : Type} [DecidableEq α] (l : List α) :
    (uniqueList l).length = l.toFinset.card := by
  rw [← toFinset_uniqueList l, List.toFinset_card_of_nodup (nodup_uniqueList l)]

theorem length_uniqueList_eq_iff {α : Type} [DecidableEq α] (l : List α) :
    (uniqueList l).length = l.length ↔ l.Nodup := by
  constructor
  · intro h
    rw [length_uniqueList_eq_card, List.card_toFinset] at h
    exact List.dedup_eq_self.mp ((List.dedup_sublist l).eq_of_length h)
  · intro h
    rw [uniqueList_eq_self h]

/-- The canonical entries appear in strictly increasing order of their
first occurrence in the input: mapping every unique entry to the position
of its first occurrence yields a strictly sorted list. -/
theorem sorted_indexOf_uniqueList {α : Type} [DecidableEq α] :
    ∀ l : List α, List.Sorted (· < ·) ((uniqueList l).map (fun a => idxOf a l))
  | [] => List.sorted_nil
  | v :: rest => by
    simp only [uniqueList, idxOf, List.map_cons]
    rw [List.sorted_cons]
    have hcong : ((uniqueList rest).filter (fun w => decide (w ≠ v))).map
          (fun a => (v :: rest).indexOf a)
        = ((uniqueList rest).filter (fun w => decide (w ≠ v))).map
          (fun a => rest.indexOf a + 1) := by
      refine List.map_congr_left fun a ha => ?_
      have hne : a ≠ v := decide_eq_true_eq.mp (List.mem_filter.mp ha).2
      rw [List.indexOf_cons_ne _ (Ne.symm hne)]
    constructor
    · intro b hb
      rcases List.mem_map.mp (hcong ▸ hb) with ⟨w, _, rfl⟩
      rw [List.indexOf_cons_self]
      exact Nat.succ_pos _
    · rw [hcong]
      have hsub : (((uniqueList rest).filter (fun w => decide (w ≠ v))).map
            (fun a => rest.indexOf a)).Sublist
          ((uniqueList rest).map (fun a => rest.indexOf a)) :=
        (List.filter_sublist (uniqueList rest)).map _
      have IH := sorted_indexOf_uniqueList rest
      simp only [idxOf] at IH
      have h1 : (((uniqueList rest).filter (fun w => decide (w ≠ v))).map
          (fun a => rest.indexOf a)).Pairwise (· < ·) :=
        IH.sublist hsub
      rw [List.pairwise_map] at h1
      exact List.pairwise_map.mpr (h1.imp fun h => Nat.succ_lt_succ h)

/-! ### Facts about `records` and flat-buffer indexing -/

theorem length_records (data : List Nat) (s : Nat) :
    (records data s).length = recordCount data s := by
  simp [records]

theorem records_getElem? (data : List Nat) (s i : Nat) (hi : i < recordCount data s) :
    (records data s)[i]? = some (recordAt data s i) := by
  simp [records, List.getElem?_range hi]

theorem recordAt_mem_records (data : List Nat) (s i : Nat) (hi : i < recordCount data s) :
    recordAt data s i ∈ records data s :=
  List.mem_map.mpr ⟨i, List.mem_range.mpr hi, rfl⟩

theorem length_recordAt (data : List Nat) (s i : Nat) (_hs : s ≠ 0)
    (hi : i < recordCount data s) : (recordAt data s i).length = s := by
  have hle : i * s + s ≤ data.length := by
    have h1 : (i + 1) * s ≤ (data.length / s) * s := Nat.mul_le_mul_right s hi
    have h2 : (data.length / s) * s ≤ data.length := Nat.div_mul_le_self _ _
    calc i * s + s = (i + 1) * s := by ring
    _ ≤ (data.length / s) * s := h1
    _ ≤ data.length := h2
  have h3 : s ≤ data.length - i * s := Nat.le_sub_of_add_le (by rw [Nat.add_comm]; exact hle)
  simp [recordAt, Nat.min_eq_left h3]

theorem length_of_mem_records (data : List Nat) (s : Nat) (hs : s ≠ 0) :
    ∀ r ∈ records data s, r.length = s := by
  intro r hr
  rcases List.mem_map.mp hr with ⟨i, hi, rfl⟩
  exact length_recordAt data s i hs (List.mem_range.mp hi)

/-- Reading record `j` out of the concatenation of equally-sized records
recovers the `j`-th record. -/
theorem recordAt_flatten (s : Nat) :
    ∀ (L : List (List Nat)) (j : Nat), (∀ r ∈ L, r.length = s) → j < L.length →
      recordAt L.flatten s j = L.getD j []
  | [], j, _, hj => absurd hj (by simp)
  | r :: L, 0, hlen, _ => by
    have hr : r.length = s := hlen r (List.mem_cons_self r L)
    simp only [recordAt, List.flatten_cons, Nat.zero_mul, List.drop_zero, List.getD_cons_zero]
    rw [← hr]
    exact List.take_left r L.flatten
  | r :: L, j + 1, hlen, hj => by
    have hr : r.length = s := hlen r (List.mem_cons_self r L)
    have hstep : recordAt (r :: L).flatten s (j + 1) = recordAt L.flatten s j := by
      simp only [recordAt, List.flatten_cons]
      have hm : (j + 1) * s = r.length + j * s := by rw [hr]; ring
      rw [hm, List.drop_append]
    rw [hstep, List.getD_cons_succ]
    exact recordAt_flatten s L j (fun r2 h2 => hlen r2 (List.mem_cons_of_mem r h2))
      (Nat.lt_of_succ_lt_succ hj)

/-- Claim C1: Deduplicator round-trip.  For every vertex stream (a flat
byte buffer with nonzero stride), running `generateIndexBuffer` and then
`generateVertexBuffer` yields an index buffer and a unique vertex buffer
such that for every record position `i` of the stream, the record of the
unique vertex buffer selected by the `i`-th index is byte-identical to
the `i`-th input record. -/
theorem dedup_roundtrip (data : List Nat) (s : Nat) (hs : s ≠ 0) (i : Nat)
    (hi : i < recordCount data s) :
    recordAt (generateVertexBuffer data s) s ((generateIndexBuffer data s).1.getD i 0)
      = recordAt data s i := by
  have hgd : (generateIndexBuffer data s).1.getD i 0
      = idxOf (recordAt data s i) (uniqueList (records data s)) := by
    simp only [generateIndexBuffer]
    rw [List.getD_eq_getElem?_getD, List.getElem?_map, records_getElem? data s i hi]
    rfl
  rw [hgd]
  have hmem : recordAt data s i ∈ uniqueList (records data s) :=
    mem_uniqueList.mpr (recordAt_mem_records data s i hi)
  have hj : idxOf (recordAt data s i) (uniqueList (records data s))
      < (uniqueList (records data s)).length := idxOf_lt_length hmem
  have hflat : recordAt (generateVertexBuffer data s) s
        (idxOf (recordAt data s i) (uniqueList (records data s)))
      = (uniqueList (records data s)).getD
        (idxOf (recordAt data s i) (uniqueList (records data s))) [] :=
    recordAt_flatten s (uniqueList (records data s)) _
      (fun r hr => length_of_mem_records data s hs r (mem_uniqueList.mp hr)) hj
  rw [hflat, List.getD_eq_getElem?_getD, List.getElem?_eq_getElem hj, Option.getD_some]
  exact getElem_idxOf hj

/-- Witness for C1 on a concrete two-byte-stride stream with one
duplicated record. -/
theorem dedup_roundtrip_witness :
    recordAt (generateVertexBuffer [1, 2, 1, 2, 5, 6] 2) 2
        ((generateIndexBuffer [1, 2, 1, 2, 5, 6] 2).1.getD 2 0)
      = recordAt [1, 2, 1, 2, 5, 6] 2 2 :=
  dedup_roundtrip [1, 2, 1, 2, 5, 6] 2 (by decide) 2 (by decide)

/-- Claim C5: Uniqueness and first-occurrence order.  `generateIndexBuffer`
returns a unique count that is at most the record count `V`, equals `V`
exactly when no two input records are byte-identical, and in general
equals the number of distinct byte patterns in the stream; the unique
entries list one copy of each distinct record, ordered by strictly
increasing position of first occurrence in the input. -/
theorem generateIndexBuffer_uniqueness (data : List Nat) (s : Nat) (_hs : s ≠ 0) :
    (generateIndexBuffer data s).2 ≤ recordCount data s
    ∧ ((generateIndexBuffer data s).2 = recordCount data s ↔ (records data s).Nodup)
    ∧ (generateIndexBuffer data s).2 = (records data s).toFinset.card
    ∧ (uniqueList (records data s)).Nodup
    ∧ (∀ r, r ∈ uniqueList (records data s) ↔ r ∈ records data s)
    ∧ List.Sorted (· < ·)
        ((uniqueList (records data s)).map (fun r => idxOf r (records data s))) := by
  have hlen : (records data s).length = recordCount data s := length_records data s
  simp only [generateIndexBuffer]
  rw [← hlen]
  exact ⟨length_uniqueList_le _, length_uniqueList_eq_iff _, length_uniqueList_eq_card _,
    nodup_uniqueList _, fun r => mem_uniqueList, sorted_indexOf_uniqueList _⟩

/-- Witness for C5 on a concrete stream of four identical one-byte
records. -/
theorem generateIndexBuffer_uniqueness_witness :
    (generateIndexBuffer [7, 7, 7, 7] 1).2 = (records [7, 7, 7, 7] 1).toFinset.card :=
  (generateIndexBuffer_uniqueness [7, 7, 7, 7] 1 (by decide)).2.2.1

/-! ## Cache simulator (spec §4.2) -/

/-- Modelled from the spec (§4.2; the library implementation is not in
the source tree): one step of the FIFO vertex cache.  The state lists the
cached vertex indices newest-first.  A reference is a hit when the index
is present, and a hit does not reorder the cache; on a miss the index is
inserted at the newest position and the oldest (last) entry is dropped
when the cache is already at capacity.  Returns the new state and whether
the reference hit. -/
def cacheStep (cap : Nat) (c : List Nat) (v : Nat) : List Nat × Bool :=
  if v ∈ c then (c, true) else (v :: c.take (cap - 1), false)

/-- Replay a reference stream through the FIFO cache starting from an
empty cache, returning the final state and the miss count. -/
def cacheSim (cap : Nat) (refs : List Nat) : List Nat × Nat :=
  refs.foldl
    (fun st v =>
      let r := cacheStep cap st.1 v
      (r.1, st.2 + (if r.2 then 0 else 1)))
    ([], 0)

/-- Total miss count of a reference stream. -/
def cacheMisses (cap : Nat) (refs : List Nat) : Nat :=
  (cacheSim cap refs).2

/-- Claim C4: FIFO semantics of the cache simulator.  A reference hits
exactly when the index is currently cached; a hit leaves the cache
contents and order unchanged; a miss inserts the index at the newest
position, evicting the oldest entry exactly when the cache is already
full (and evicting nothing when it is not yet full). -/
theorem cacheStep_fifo (cap : Nat) (c : List Nat) (v : Nat) :
    ((cacheStep cap c v).2 = true ↔ v ∈ c)
    ∧ (v ∈ c → (cacheStep cap c v).1 = c)
    ∧ (v ∉ c → c.length < cap → (cacheStep cap c v).1 = v :: c)
    ∧ (v ∉ c → c.length = cap → 0 < cap → (cacheStep cap c v).1 = v :: c.dropLast) := by
  refine ⟨?_, ?_, ?_, ?_⟩
  · by_cases h : v ∈ c <;> simp [cacheStep, h]
  · intro h
    simp [cacheStep, h]
  · intro h hlt
    simp only [cacheStep, if_neg h]
    rw [List.take_of_length_le (by omega)]
  · intro h hlen _hcap
    simp only [cacheStep, if_neg h]
    rw [List.dropLast_eq_take, hlen]

/-- Witness for C4: a miss on a full two-entry cache evicts the oldest
entry. -/
theorem cacheStep_fifo_witness :
    (cacheStep 2 [5, 4] 7).1 = 7 :: [5, 4].dropLast :=
  (cacheStep_fifo 2 [5, 4] 7).2.2.2 (by decide) (by decide) (by decide)

/-! ## Statistics analyzers (spec §4.5) -/

/-- Statistics reported by the post-transform analyzer, as exact
rationals. -/
structure PostTransformCacheStatistics where
  acmr : ℚ
  atvr : ℚ

/-- ACMR of an index buffer: miss count divided by triangle count (zero
triangles give 0 by the convention of rational division). -/
def acmrOf (cap : Nat) (indices : List Nat) : ℚ :=
  (cacheMisses cap indices : ℚ) / ((indices.length / 3 : Nat) : ℚ)

/-- Modelled from the spec (§4.5; the library implementation is not in
the source tree): the analyzer replays the FIFO cache over the buffer and
reports ACMR = misses / triangles and ATVR = misses / vertex count. -/
def analyzePostTransform (indices : List Nat) (vertexCount cap : Nat) :
    PostTransformCacheStatistics :=
  { acmr := acmrOf cap indices
    atvr := (cacheMisses cap indices : ℚ) / (vertexCount : ℚ) }

/-- Claim C7: the analyzer returns ACMR equal to the cache miss count of
the FIFO replay divided by the triangle count, and ATVR equal to the miss
count divided by the unique vertex count, with ideal ATVR 1 when each
vertex is transformed exactly once (miss count equal to vertex count). -/
theorem analyzePostTransform_statistics (indices : List Nat) (vc cap t : Nat)
    (ht : indices.length = 3 * t) (ht0 : t ≠ 0) (hvc : vc ≠ 0) :
    (analyzePostTransform indices vc cap).acmr = (cacheMisses cap indices : ℚ) / (t : ℚ)
    ∧ (analyzePostTransform indices vc cap).acmr * (t : ℚ) = (cacheMisses cap indices : ℚ)
    ∧ (analyzePostTransform indices vc cap).atvr = (cacheMisses cap indices : ℚ) / (vc : ℚ)
    ∧ (analyzePostTransform indices vc cap).atvr * (vc : ℚ) = (cacheMisses cap indices : ℚ)
    ∧ (cacheMisses cap indices = vc → (analyzePostTransform indices vc cap).atvr = 1) := by
  have htris : indices.length / 3 = t := by
    rw [ht]
    exact Nat.mul_div_cancel_left t (by norm_num)
  have ht0Q : (t : ℚ) ≠ 0 := Nat.cast_ne_zero.mpr ht0
  have hvcQ : (vc : ℚ) ≠ 0 := Nat.cast_ne_zero.mpr hvc
  refine ⟨?_, ?_, rfl, ?_, ?_⟩
  · simp [analyzePostTransform, acmrOf, htris]
  · simp [analyzePostTransform, acmrOf, htris, div_mul_cancel₀ _ ht0Q]
  · exact div_mul_cancel₀ _ hvcQ
  · intro hmv
    simp [analyzePostTransform, hmv, div_self hvcQ]

/-- Witness for C7 on a single triangle over three vertices with cache
size 24. -/
theorem analyzePostTransform_statistics_witness :
    (analyzePostTransform [0, 1, 2] 3 24).acmr
      = (cacheMisses 24 [0, 1, 2] : ℚ) / ((1 : Nat) : ℚ) :=
  (analyzePostTransform_statistics [0, 1, 2] 3 24 1 (by decide) (by decide) (by decide)).1

/-! ## Triangles and the post-transform optimizer (spec §4.3) -/

/-- A triangle as the ordered triple of its three vertex indices. -/
abbrev Tri : Type := Nat × Nat × Nat

/-- Split an index buffer into its consecutive triangles; a trailing
fragment of fewer than three indices is dropped, matching the C++
interface, which processes `index_count / 3` triangles. -/
def triangles : List Nat → List Tri
  | a :: b :: c :: rest => (a, b, c) :: triangles rest
  | _ => []

/-- Rebuild an index buffer from a triangle list. -/
def flattenTris : List Tri → List Nat
  | [] => []
  | (a, b, c) :: rest => a :: b :: c :: flattenTris rest

theorem triangles_flattenTris : ∀ L : List Tri, triangles (flattenTris L) = L
  | [] => rfl
  | (a, b, c) :: rest => by
    simp only [flattenTris, triangles]
    rw [triangles_flattenTris rest]

/-- Modelled from the spec (§4.3): score of one vertex, combining a
cache-position bonus (highest for the most recently inserted entries,
zero outside the cache window) and a valence bonus that grows as the
vertex's live-triangle count shrinks; a vertex with no live triangles
gets a strongly negative score.  The spec leaves the exact constants
open (§9), so simple concrete constants are chosen. -/
def vertexScore (cap : Nat) (cache : List Nat) (live : Nat) (v : Nat) : ℚ :=
  (if v ∈ cache then ((cap : ℚ) - (idxOf v cache : ℚ)) / (cap : ℚ) else 0)
    + (if live = 0 then -1000000 else 2 / (live : ℚ))

/-- Score of a triangle: the sum of its three vertex scores. -/
def triScore (cap : Nat) (cache : List Nat) (live : Nat → Nat) : Tri → ℚ
  | (a, b, c) =>
    vertexScore cap cache (live a) a + vertexScore cap cache (live b) b
      + vertexScore cap cache (live c) c

/-- Push the three corners of a triangle through the cache. -/
def pushTri (cap : Nat) (cache : List Nat) : Tri → List Nat
  | (a, b, c) => (cacheStep cap (cacheStep cap (cacheStep cap cache a).1 b).1 c).1

/-- Decrement the live-triangle count of the three corners of an emitted
triangle. -/
def decLive (live : Nat → Nat) : Tri → Nat → Nat
  | (a, b, c), w =>
    live w
      - ((if w = a then 1 else 0) + (if w = b then 1 else 0) + (if w = c then 1 else 0))

/-- Index of the first maximal element of a list of scores: ties are
broken in favour of the earliest position, so the greedy selection is
stable with respect to the input order. -/
def argmaxIdx : List ℚ → Nat
  | [] => 0
  | [_] => 0
  | x :: y :: rest =>
    if x < (y :: rest).getD (argmaxIdx (y :: rest)) 0 then argmaxIdx (y :: rest) + 1 else 0

theorem argmaxIdx_lt : ∀ l : List ℚ, l ≠ [] → argmaxIdx l < l.length
  | [], h => absurd rfl h
  | [_], _ => Nat.zero_lt_one
  | x :: y :: rest, _ => by
    have h := argmaxIdx_lt (y :: rest) (by simp)
    simp only [argmaxIdx]
    split
    · exact Nat.succ_lt_succ h
    · simp

/-- Modelled from the spec (§4.3): the greedy emission loop.  At every
step the highest-scoring remaining triangle (the earliest one on ties) is
emitted, its corners are pushed through the cache and their live counts
decremented; the loop never revisits an emitted triangle. -/
def greedyOrder (cap : Nat) (cache : List Nat) (live : Nat → Nat) : List Tri → List Tri
  | [] => []
  | r :: rs =>
    ((r :: rs).getD (argmaxIdx ((r :: rs).map (triScore cap cache live))) (0, 0, 0))
      :: greedyOrder cap
        (pushTri cap cache
          ((r :: rs).getD (argmaxIdx ((r :: rs).map (triScore cap cache live))) (0, 0, 0)))
        (decLive live
          ((r :: rs).getD (argmaxIdx ((r :: rs).map (triScore cap cache live))) (0, 0, 0)))
        ((r :: rs).eraseIdx (argmaxIdx ((r :: rs).map (triScore cap cache live))))
  termination_by l => l.length
  decreasing_by
    have hj : argmaxIdx ((r :: rs).map (triScore cap cache live)) < (r :: rs).length := by
      have h := argmaxIdx_lt ((r :: rs).map (triScore cap cache live)) (by simp)
      simpa using h
    rw [List.length_eraseIdx_of_lt hj]
    simp

/-- Selecting the element at a valid position and erasing it is a
permutation of the original list. -/
theorem perm_getD_cons_eraseIdx {α : Type} (l : List α) (j : Nat) (d : α)
    (hj : j < l.length) : (l.getD j d :: l.eraseIdx j).Perm l := by
  have hdecomp : l = l.take j ++ l.getD j d :: l.drop (j + 1) := by
    conv_lhs => rw [← List.take_append_drop j l]
    congr 1
    rw [List.drop_eq_getElem_cons hj]
    congr 1
    rw [List.getD_eq_getElem l d hj]
  rw [List.eraseIdx_eq_take_drop_succ]
  conv_rhs => rw [hdecomp]
  exact List.perm_middle.symm

theorem greedyOrder_perm (cap : Nat) :
    ∀ (n : Nat) (cache : List Nat) (live : Nat → Nat) (rem : List Tri),
      rem.length ≤ n → (greedyOrder cap cache live rem).Perm rem
  | _, _, _, [], _ => by
    rw [greedyOrder]
  | 0, _, _, r :: rs, h => by
    simp at h
  | n + 1, cache, live, r :: rs, h => by
    rw [greedyOrder]
    have hj : argmaxIdx ((r :: rs).map (triScore cap cache live)) < (r :: rs).length := by
      have h2 := argmaxIdx_lt ((r :: rs).map (triScore cap cache live)) (by simp)
      simpa using h2
    have hlen :
        ((r :: rs).eraseIdx (argmaxIdx ((r :: rs).map (triScore cap cache live)))).length
          ≤ n := by
      rw [List.length_eraseIdx_of_lt hj]
      simpa using Nat.le_of_succ_le_succ h
    exact ((greedyOrder_perm cap n _ _ _ hlen).cons _).trans
      (perm_getD_cons_eraseIdx _ _ _ hj)

/-- Modelled from the spec (§4.3): the post-transform optimizer seeds each
live-triangle count from the number of references in the input, starts
from an empty cache, and emits all triangles greedily. -/
def optimizePostTransform (indices : List Nat) (vertexCount cap : Nat) : List Nat :=
  flattenTris (greedyOrder cap [] (fun v => indices.count v) (triangles indices))

/-- The unordered vertex-index triple of a triangle, as a multiset. -/
def unorderedTri : Tri → Multiset Nat
  | (a, b, c) => {a, b, c}

/-- Claim C2: Triangle-set preservation.  For every valid index buffer
(length a multiple of three, all indices below the vertex count), the
output of `optimizePostTransform` holds exactly the same multiset of
unordered index triples as its input: only the order of triangles
changes, never the three indices of a triangle. -/
theorem optimizePostTransform_preserves_triangles (indices : List Nat) (vc cap : Nat)
    (_h3 : indices.length % 3 = 0) (_hvalid : ∀ i ∈ indices, i < vc) :
    ((triangles (optimizePostTransform indices vc cap)).map unorderedTri).Perm
      ((triangles indices).map unorderedTri) := by
  unfold optimizePostTransform
  rw [triangles_flattenTris]
  exact (greedyOrder_perm cap (triangles indices).length [] _ _ le_rfl).map unorderedTri

/-- Witness for C2 on a concrete two-triangle buffer over four
vertices. -/
theorem optimizePostTransform_preserves_triangles_witness :
    ((triangles (optimizePostTransform [0, 1, 2, 2, 1, 3] 4 24)).map unorderedTri).Perm
      ((triangles [0, 1, 2, 2, 1, 3]).map unorderedTri) :=
  optimizePostTransform_preserves_triangles [0, 1, 2, 2, 1, 3] 4 24 (by decide)
    (by decide)

/-! ## Overdraw optimizer and analyzer (spec §4.4–§4.5) -/

/-- A 3-D position, as exact rationals. -/
abbrev Pos3 : Type := ℚ × ℚ × ℚ

/-- Centroid of a triangle, reading positions by vertex index
(out-of-range indices read the origin). -/
def triCentroid (pos : List Pos3) (t : Tri) : Pos3 :=
  ((((pos.getD t.1 (0, 0, 0)).1 + (pos.getD t.2.1 (0, 0, 0)).1
        + (pos.getD t.2.2 (0, 0, 0)).1) / 3),
   (((pos.getD t.1 (0, 0, 0)).2.1 + (pos.getD t.2.1 (0, 0, 0)).2.1
        + (pos.getD t.2.2 (0, 0, 0)).2.1) / 3),
   (((pos.getD t.1 (0, 0, 0)).2.2 + (pos.getD t.2.1 (0, 0, 0)).2.2
        + (pos.getD t.2.2 (0, 0, 0)).2.2) / 3))

/-- Split a triangle list into clusters, given the flat list of cluster
start offsets (spec §3, §9: clusters are contiguous half-open ranges of
the buffer described by their boundary offsets). -/
def splitClusters (tris : List Tri) : List Nat → List (List Tri)
  | [] => []
  | [b] => [tris.drop b]
  | b :: b2 :: rest => ((tris.drop b).take (b2 - b)) :: splitClusters tris (b2 :: rest)

/-- Sort key of a cluster: the sum of the view-direction (z) components
of its triangle centroids.  Modelled from the spec (§4.4): the exact
projection heuristic is left open by the spec (§9); it does not affect
the threshold contract. -/
def clusterKey (pos : List Pos3) (c : List Tri) : ℚ :=
  (c.map (fun t => (triCentroid pos t).2.2)).sum

/-- Modelled from the spec (§4.4; the library implementation is not in
the source tree): the overdraw optimizer reorders the clusters of an
already cache-optimized buffer (here: sorts them by the depth key), and
applies the ACMR degradation threshold as a hard cap: the reordered
buffer is kept only while its replayed ACMR stays within `threshold`
times the ACMR of the input ordering, and the input ordering is returned
otherwise. -/
def optimizeOverdraw (indices : List Nat) (pos : List Pos3) (clusters : List Nat)
    (cap : Nat) (threshold : ℚ) : List Nat :=
  let sorted := List.insertionSort (fun c1 c2 => clusterKey pos c1 ≤ clusterKey pos c2)
    (splitClusters (triangles indices) clusters)
  let candidate := flattenTris sorted.flatten
  if acmrOf cap candidate ≤ threshold * acmrOf cap indices then candidate else indices

theorem acmrOf_nonneg (cap : Nat) (indices : List Nat) : 0 ≤ acmrOf cap indices :=
  div_nonneg (Nat.cast_nonneg _) (Nat.cast_nonneg _)

/-- Claim C3: Overdraw threshold contract.  For every input buffer with
its clusters and positions and every threshold `T ≥ 1`, the buffer
produced by `optimizeOverdraw` has ACMR (as reported by
`analyzePostTransform` at the same cache size) at most `T` times the
ACMR of the input ordering. -/
theorem optimizeOverdraw_threshold (indices : List Nat) (pos : List Pos3)
    (clusters : List Nat) (vc cap : Nat) (T : ℚ) (hT : 1 ≤ T) :
    (analyzePostTransform (optimizeOverdraw indices pos clusters cap T) vc cap).acmr
      ≤ T * (analyzePostTransform indices vc cap).acmr := by
  show acmrOf cap (optimizeOverdraw indices pos clusters cap T) ≤ T * acmrOf cap indices
  simp only [optimizeOverdraw]
  split
  · rename_i h
    exact h
  · calc acmrOf cap indices = 1 * acmrOf cap indices := (one_mul _).symm
    _ ≤ T * acmrOf cap indices := mul_le_mul_of_nonneg_right hT (acmrOf_nonneg cap indices)

/-- Witness for C3 on a one-triangle buffer with a single cluster and
threshold 2. -/
theorem optimizeOverdraw_threshold_witness :
    (analyzePostTransform (optimizeOverdraw [0, 1, 2] [] [0] 24 2) 3 24).acmr
      ≤ 2 * (analyzePostTransform [0, 1, 2] 3 24).acmr :=
  optimizeOverdraw_threshold [0, 1, 2] [] [0] 3 24 2 (by norm_num)

/-- Overdraw statistic, as an exact rational. -/
structure OverdrawStatistics where
  overdraw : ℚ

/-- Screen-space bucket covered by a triangle: the integer cell of its
centroid under axis-aligned projection along z.  Modelled from the spec
(§4.4–§4.5): the estimator projects triangles along fixed view directions
into screen-space buckets; the bucket resolution is left open by the
spec, and a one-bucket-per-triangle centroid approximation is used. -/
def triBucket (pos : List Pos3) (t : Tri) : Int × Int :=
  (⌊(triCentroid pos t).1⌋, ⌊(triCentroid pos t).2.1⌋)

/-- Modelled from the spec (§4.5; the library implementation is not in
the source tree): estimated overdraw is the total accumulated coverage
divided by the ideal single-layer coverage (the number of distinct
covered buckets). -/
def analyzeOverdraw (indices : List Nat) (pos : List Pos3) : OverdrawStatistics :=
  ⟨(((triangles indices).map (triBucket pos)).length : ℚ)
    / ((((triangles indices).map (triBucket pos)).dedup.length : ℚ))⟩

/-- Claim C6: Determinism.  Every core operation (deduplication, both
optimizers, both analyzers) is a pure function of its arguments: two runs
on component-wise identical inputs produce identical output buffers and
identical statistics.  Ties in the greedy selection are broken by
original input order inside `argmaxIdx`, which is itself a function of
the score list. -/
theorem core_operations_deterministic (d d2 : List Nat) (s s2 : Nat)
    (ix ix2 : List Nat) (vc vc2 cap cap2 : Nat) (pos pos2 : List Pos3)
    (cl cl2 : List Nat) (T T2 : ℚ)
    (h : d = d2 ∧ s = s2 ∧ ix = ix2 ∧ vc = vc2 ∧ cap = cap2 ∧ pos = pos2
      ∧ cl = cl2 ∧ T = T2) :
    generateIndexBuffer d s = generateIndexBuffer d2 s2
    ∧ generateVertexBuffer d s = generateVertexBuffer d2 s2
    ∧ optimizePostTransform ix vc cap = optimizePostTransform ix2 vc2 cap2
    ∧ optimizeOverdraw ix pos cl cap T = optimizeOverdraw ix2 pos2 cl2 cap2 T2
    ∧ analyzePostTransform ix vc cap = analyzePostTransform ix2 vc2 cap2
    ∧ analyzeOverdraw ix pos = analyzeOverdraw ix2 pos2 := by
  obtain ⟨rfl, rfl, rfl, rfl, rfl, rfl, rfl, rfl⟩ := h
  exact ⟨rfl, rfl, rfl, rfl, rfl, rfl⟩

/-- Witness for C6 at concrete inputs. -/
theorem core_operations_deterministic_witness :
    generateIndexBuffer [1] 1 = generateIndexBuffer [1] 1 :=
  (core_operations_deterministic [1] [1] 1 1 [0, 1, 2] [0, 1, 2] 3 3 24 24 [] [] [0] [0]
    2 2 ⟨rfl, rfl, rfl, rfl, rfl, rfl, rfl, rfl⟩).1

/-! ## Demo driver, embedded from `demo/main.cpp` -/

/-- Vertex layout of the demo: position, normal and texture coordinates,
with the floats modelled as exact rationals (the demo only ever stores
small integers and simple constants in them). -/
structure Vertex where
  px : ℚ
  py : ℚ
  pz : ℚ
  nx : ℚ
  ny : ℚ
  nz : ℚ
  tx : ℚ
  ty : ℚ
deriving DecidableEq

/-- A mesh: vertex buffer plus index buffer. -/
structure Mesh where
  vertices : List Vertex
  indices : List Nat
deriving DecidableEq

/-- Cache size used throughout the demo (`kCacheSize`). -/
def kCacheSize : Nat := 24

/-- Vertex written for grid position (x, y) by `generatePlane`: position
(x, y, 0), normal (0, 0, 1), texcoord (0, 0). -/
def planeVertex (x y : Nat) : Vertex :=
  ⟨(x : ℚ), (y : ℚ), 0, 0, 0, 1, 0, 0⟩

/-- Embedded from `generatePlane` in `demo/main.cpp`: the vertices of an
(N+1)×(N+1) grid in row-major order, followed by the index buffer built
with two triangles per cell; the code computes the vertex index of cell
corner (x2, y2) as `y2 * N + x2`. -/
def generatePlane (N : Nat) : Mesh where
  vertices :=
    (List.range (N + 1)).flatMap (fun y =>
      (List.range (N + 1)).map (fun x => planeVertex x y))
  indices :=
    (List.range N).flatMap (fun y =>
      (List.range N).flatMap (fun x =>
        [(y + 0) * N + (x + 0), (y + 0) * N + (x + 1), (y + 1) * N + (x + 0),
         (y + 1) * N + (x + 0), (y + 0) * N + (x + 1), (y + 1) * N + (x + 1)]))

theorem length_range_flatMap_const {α : Type} (n c : Nat) (f : Nat → List α)
    (h : ∀ i, (f i).length = c) : ((List.range n).flatMap f).length = n * c := by
  rw [List.length_flatMap]
  have h1 : ∀ b ∈ (List.range n).map (List.length ∘ f), b = c := by
    intro b hb
    rcases List.mem_map.mp hb with ⟨i, _, rfl⟩
    exact h i
  rw [List.eq_replicate_of_mem h1]
  simp [List.sum_replicate, smul_eq_mul]

/-- Claim C9: Index-range invariant of the generated plane.  For every
N ≥ 1 the mesh returned by `generatePlane N` has an index buffer of
length 6·N·N, a multiple of 3, a vertex buffer of length (N+1)·(N+1),
and every index is strictly below the vertex buffer length. -/
theorem generatePlane_index_invariant (N : Nat) (_hN : 1 ≤ N) :
    (generatePlane N).indices.length = 6 * N * N
    ∧ (generatePlane N).indices.length % 3 = 0
    ∧ (generatePlane N).vertices.length = (N + 1) * (N + 1)
    ∧ ∀ i ∈ (generatePlane N).indices, i < (generatePlane N).vertices.length := by
  have hvert : (generatePlane N).vertices.length = (N + 1) * (N + 1) := by
    show ((List.range (N + 1)).flatMap (fun y =>
        (List.range (N + 1)).map (fun x => planeVertex x y))).length
      = (N + 1) * (N + 1)
    exact length_range_flatMap_const (N + 1) (N + 1) _
      (fun i => by rw [List.length_map, List.length_range])
  have hidx : (generatePlane N).indices.length = N * (N * 6) := by
    show ((List.range N).flatMap (fun y =>
        (List.range N).flatMap (fun x =>
          [(y + 0) * N + (x + 0), (y + 0) * N + (x + 1), (y + 1) * N + (x + 0),
           (y + 1) * N + (x + 0), (y + 0) * N + (x + 1),
           (y + 1) * N + (x + 1)]))).length = N * (N * 6)
    exact length_range_flatMap_const N (N * 6) _
      (fun y => length_range_flatMap_const N 6 _ (fun x => rfl))
  refine ⟨by rw [hidx]; ring, ?_, hvert, ?_⟩
  · rw [hidx]
    have h36 : N * (N * 6) = 3 * (2 * (N * N)) := by ring
    rw [h36]
    exact Nat.mul_mod_right 3 _
  · intro i hi
    rw [hvert]
    rcases List.mem_flatMap.mp hi with ⟨y, hy, hi2⟩
    rcases List.mem_flatMap.mp hi2 with ⟨x, hx, hi3⟩
    have hyN : y < N := List.mem_range.mp hy
    have hxN : x < N := List.mem_range.mp hx
    have hb : ∃ a b, a ≤ N ∧ b ≤ N ∧ i = a * N + b := by
      simp only [List.mem_cons, List.not_mem_nil, or_false] at hi3
      rcases hi3 with rfl | rfl | rfl | rfl | rfl | rfl
      · exact ⟨y, x, by omega, by omega, rfl⟩
      · exact ⟨y, x + 1, by omega, by omega, rfl⟩
      · exact ⟨y + 1, x, by omega, by omega, rfl⟩
      · exact ⟨y + 1, x, by omega, by omega, rfl⟩
      · exact ⟨y, x + 1, by omega, by omega, rfl⟩
      · exact ⟨y + 1, x + 1, by omega, by omega, rfl⟩
    rcases hb with ⟨a, b, ha, hb2, rfl⟩
    calc a * N + b ≤ N * N + N := Nat.add_le_add (Nat.mul_le_mul_right N ha) hb2
    _ < N * N + (2 * N + 1) := Nat.add_lt_add_left (by omega) (N * N)
    _ = (N + 1) * (N + 1) := by ring

/-- Witness for C9 at N = 2. -/
theorem generatePlane_index_invariant_witness :
    (generatePlane 2).indices.length = 6 * 2 * 2 :=
  (generatePlane_index_invariant 2 (by decide)).1

/-- Claim C8 (refuted; code bug): at N = 1 the generated index buffer is
[0, 1, 1, 1, 1, 2], so the two triangles of the single cell reference the
vertex set {0, 1, 2} and not the four corner vertices {0, 1, 2, 3} of
the 2-wide vertex grid.  The vertex buffer is laid out with row stride
N + 1 while the index computation uses row stride N. -/
theorem generatePlane_cell_divergence :
    (generatePlane 1).indices = [0, 1, 1, 1, 1, 2]
    ∧ (generatePlane 1).indices.toFinset ≠ ({0, 1, 2, 3} : Finset Nat) := by
  constructor
  · rfl
  · decide

/-! ## The `opt*` wrappers and the `optimize` driver of `demo/main.cpp` -/

/-- Positions of the mesh vertices, as the demo passes them through
`&vertices[0].px` with the vertex stride. -/
def meshPositions (m : Mesh) : List Pos3 :=
  m.vertices.map (fun v => (v.px, v.py, v.pz))

/-- Embedded from `optNone`: leaves the mesh untouched. -/
def optNone (m : Mesh) : Mesh := m

/-- Embedded from `optRandomShuffle`: reorders whole triangles by the
face permutation drawn by `std::random_shuffle`; that draw is the only
source of randomness, so it is passed in as the `faces` argument. -/
def optRandomShuffle (faces : List Nat) (m : Mesh) : Mesh :=
  { m with
    indices := flattenTris (faces.map (fun f => (triangles m.indices).getD f (0, 0, 0))) }

/-- Embedded from `optPostTransform`: replaces the index buffer with the
cache-optimized order. -/
def optPostTransform (m : Mesh) : Mesh :=
  { m with indices := optimizePostTransform m.indices m.vertices.length kCacheSize }

/-- Misses incurred by pushing the three corners of a triangle through
the cache in its current state. -/
def triMisses (cap : Nat) (cache : List Nat) : Tri → Nat
  | (a, b, c) =>
    (if (cacheStep cap cache a).2 then 0 else 1)
      + (if (cacheStep cap (cacheStep cap cache a).1 b).2 then 0 else 1)
      + (if (cacheStep cap (cacheStep cap (cacheStep cap cache a).1 b).1 c).2 then 0 else 1)

/-- Modelled from the spec (§4.3): the cluster boundaries emitted with
the cache-optimized order: a new cluster starts once the cache misses
accumulated since the last boundary reach the cache capacity, so each
cluster is a locally cache-coherent run.  Returns the flat list of
cluster start offsets (in triangles), beginning with 0. -/
def clusterBoundaries (cap : Nat) (tris : List Tri) : List Nat :=
  (tris.foldl
    (fun (st : List Nat × Nat × Nat × List Nat) t =>
      if cap ≤ st.2.1 + triMisses cap st.1 t then
        (pushTri cap st.1 t, 0, st.2.2.1 + 1, st.2.2.2 ++ [st.2.2.1 + 1])
      else
        (pushTri cap st.1 t, st.2.1 + triMisses cap st.1 t, st.2.2.1 + 1, st.2.2.2))
    ([], 0, 0, [0])).2.2.2

/-- Embedded from `optOverdraw`: cache-optimizes into a scratch buffer,
collecting the clusters, then runs the overdraw optimizer with threshold
1.05 on that buffer, writing the result into the mesh. -/
def optOverdraw (m : Mesh) : Mesh :=
  { m with
    indices :=
      optimizeOverdraw (optimizePostTransform m.indices m.vertices.length kCacheSize)
        (meshPositions m)
        (clusterBoundaries kCacheSize
          (triangles (optimizePostTransform m.indices m.vertices.length kCacheSize)))
        kCacheSize (21 / 20) }

/-- Embedded from `optOverdrawOnly`: a single cluster spanning the whole
mesh (the vector `clusters(1)` holds the single start offset 0) and the
relaxed threshold 3. -/
def optOverdrawOnly (m : Mesh) : Mesh :=
  { m with indices := optimizeOverdraw m.indices (meshPositions m) [0] kCacheSize 3 }

/-- Statistics printed by the driver for one strategy. -/
structure DriverStats where
  acmr : ℚ
  atvr : ℚ
  overdraw : ℚ

/-- Embedded from `optimize` in `demo/main.cpp`: the driver takes the
mesh by const reference, deep-copies it (`Mesh copy = mesh`), applies the
optimization function and both analyzers to the copy only, and prints the
statistics.  Every mutation targets the copy, so the first component of
the result — the caller's mesh as it stands after the call — is the
argument unchanged. -/
def optimize (mesh : Mesh) (optf : Mesh → Mesh) : Mesh × DriverStats :=
  (mesh,
    { acmr :=
        (analyzePostTransform (optf mesh).indices (optf mesh).vertices.length
          kCacheSize).acmr
      atvr :=
        (analyzePostTransform (optf mesh).indices (optf mesh).vertices.length
          kCacheSize).atvr
      overdraw := (analyzeOverdraw (optf mesh).indices (meshPositions (optf mesh))).overdraw })

/-- The mesh argument received by each of the five `optimize` calls in
`main`, threading the caller's mesh state through the sequence of calls
(`faces` abstracts the shuffle draw of the second strategy). -/
def mainCallInputs (mesh0 : Mesh) (faces : List Nat) : List Mesh :=
  [mesh0,
   (optimize mesh0 optNone).1,
   (optimize (optimize mesh0 optNone).1 (optRandomShuffle faces)).1,
   (optimize (optimize (optimize mesh0 optNone).1 (optRandomShuffle faces)).1
     optPostTransform).1,
   (optimize (optimize (optimize (optimize mesh0 optNone).1
     (optRandomShuffle faces)).1 optPostTransform).1 optOverdraw).1]

/-- Claim C10: the `optimize` driver never modifies its mesh argument:
the caller's mesh after a call equals the mesh before it for every
optimization function, and in `main` every one of the five strategies
(Original, Random Shuffle, Cache, Cache+Overdraw, Overdraw Only) receives
the identical original mesh. -/
theorem optimize_preserves_caller_mesh (m : Mesh) (optf : Mesh → Mesh)
    (mesh0 : Mesh) (faces : List Nat) :
    (optimize m optf).1 = m
    ∧ mainCallInputs mesh0 faces = [mesh0, mesh0, mesh0, mesh0, mesh0] :=
  ⟨rfl, rfl⟩

end MeshOpt
